import Mathlib

/-!
# Verification of the `agentic` dependency-flow core

Shallow embedding of `src/agentic/core/flow.py` (the `flow` decorator: AST
read/write analysis, producer-map graph builder, and the thread-pool
scheduler modelled as a nondeterministic small-step machine) and of
`src/agentic/core/loop.py` (the parallel-map utility), together with proofs
and refutations of the frozen specification claims.
-/

namespace Agentic

/-! ## Mini Python AST

The fragment of Python expressions/statements that flow bodies under test
use.  `call f` models a zero-argument call `f()` (the only call shape
appearing in flow bodies here); the callee name `f` occurs in Load context,
so it counts as a read, exactly as `ast.walk` reports it. -/

inductive Exp : Type
  | const (n : Int)
  | evar (x : String)
  | add (a b : Exp)
  | call (f : String)
  deriving DecidableEq

/-- Statements: assignment, `return`, and the `if` compound statement
(single-statement branches).  `sif` is included because `flow` performs no
shape rejection: compound statements flow through the analyzer like any
other statement. -/
inductive Stmt : Type
  | assign (x : String) (e : Exp)
  | ret (e : Exp)
  | sif (c : Exp) (thn els : Stmt)
  deriving DecidableEq

def Stmt.isRet : Stmt → Bool
  | .ret _ => true
  | _ => false

/-- Load-context names of an expression, as collected by `ast.walk` in
`_reads_writes` (flow.py lines 18-21). -/
def expReads : Exp → List String
  | .const _ => []
  | .evar x => [x]
  | .add a b => expReads a ++ expReads b
  | .call f => [f]

/-- `_reads_writes` reads component: every `ast.Name` in Load context
anywhere in the statement's subtree (`ast.walk` recurses into nested
statements, so branch bodies contribute too).

The source also removes `dir(__builtins__)` from the reads (flow.py line
25); no name used by any claim input is in that removal set, and a read
with no producer-map entry creates no edge anyway, so the removal is not
modelled. -/
def stmtReads : Stmt → List String
  | .assign _ e => expReads e
  | .ret e => expReads e
  | .sif c t e => expReads c ++ stmtReads t ++ stmtReads e

/-- `_reads_writes` writes component: every `ast.Name` in Store context
anywhere in the statement's subtree. -/
def stmtWrites : Stmt → List String
  | .assign x _ => [x]
  | .ret _ => []
  | .sif _ t e => stmtWrites t ++ stmtWrites e

/-! ## The graph builder (flow.py lines 52-87)

Mirrors the `for idx, stmt in enumerate(statements)` loop: a `return`
statement records the return expression and is skipped (`continue`), every
other statement becomes a node whose dependency set resolves its reads
against the current producer map `var_producer`, after which its writes are
registered under the *statement* index `idx` (the loop counter, which keeps
counting across skipped `return` statements). -/

structure FlowNode : Type where
  stmt : Stmt
  deps : Finset Nat
  deriving DecidableEq

structure FlowGraph : Type where
  nodes : List FlowNode
  retExpr : Option Exp
  deriving DecidableEq

/-- The builder loop.  `idx` is the enumerate counter, `p` the producer map
`var_producer`, `r` the last `return` expression seen so far.

This is the graph-construction part of the loop only; the `_compile_stmt`
call inside the loop can itself raise (`compile` rejects a nested `return`
with `SyntaxError: 'return' outside function`), and that decoration-time
error path is modelled separately by `buildFlowChecked` below.  Every flow
body used by the scenario claims is free of nested `return` statements, so
for those bodies the compile step succeeds and `buildGo` is the whole
story. -/
def buildGo : List Stmt → Nat → (String → Option Nat) → Option Exp → FlowGraph
  | [], _, _, r => ⟨[], r⟩
  | .ret e :: rest, idx, p, _ => buildGo rest (idx + 1) p (some e)
  | s :: rest, idx, p, r =>
      let deps : Finset Nat := ((stmtReads s).filterMap p).toFinset
      let g := buildGo rest (idx + 1)
        (fun v => if v ∈ stmtWrites s then some idx else p v) r
      ⟨⟨s, deps⟩ :: g.nodes, g.retExpr⟩

def buildFlow (body : List Stmt) : FlowGraph :=
  buildGo body 0 (fun _ => none) none

/-- Dependency set of node `i` (by node-list position), empty for
out-of-range positions. -/
def depsOf (G : FlowGraph) (i : Nat) : Finset Nat :=
  ((G.nodes.get? i).map FlowNode.deps).getD ∅

inductive PyError : Type
  | valueError
  | nameError
  | syntaxError
  | userError (msg : String)
  deriving DecidableEq

def Ns : Type := String → Option Int

def setVar (ns : Ns) (x : String) (v : Int) : Ns :=
  fun y => if y = x then some v else ns y

/-- Zero-argument functions available in `globals_ns`: each call either
returns a value or raises. -/
def FEnv : Type := String → Option (Except PyError Int)

def evalExp (fe : FEnv) (ns : Ns) : Exp → Except PyError Int
  | .const n => .ok n
  | .evar x =>
      match ns x with
      | some v => .ok v
      | none => .error .nameError
  | .add a b => do
      let va ← evalExp fe ns a
      let vb ← evalExp fe ns b
      pure (va + vb)
  | .call f =>
      match fe f with
      | some r => r
      | none => .error .nameError

/-- `exec` of one statement: an assignment stores the evaluated value, a
bare `return` statement executed as module-level code does nothing (the
builder never turns one into a node anyway), an `if` evaluates its
condition and runs the chosen branch (Python truthiness: nonzero). -/
def execStmt (fe : FEnv) (ns : Ns) : Stmt → Except PyError Ns
  | .assign x e => (evalExp fe ns e).map (fun v => setVar ns x v)
  | .ret _ => .ok ns
  | .sif c t e => do
      let vc ← evalExp fe ns c
      if vc ≠ 0 then execStmt fe ns t else execStmt fe ns e

/-! ## The scheduler (flow.py lines 92-142)

The wrapped function's event loop is modelled as a nondeterministic
small-step machine.  A state records each node's lifecycle status, its
`deps_remaining` counter, the shared namespace, and the first observed
exception.  A step is the processing of one completed future:

* a node whose `exec` succeeded is marked done, every node listing it as a
  dependency has its counter decremented, and any counter reaching zero is
  submitted (`submit_node`, flow.py lines 130-135);
* a node whose `exec` raised is marked failed and the exception recorded —
  the code immediately re-raises (line 128), so no further step is enabled
  once `err` is set.

The namespace update of a node is made visible atomically at its
completion step; along every dependency edge this matches the code (the
producer's writes land before its future completes, the dependent starts
after). -/

inductive NStatus : Type
  | pending
  | running
  | done
  | failed
  deriving DecidableEq

structure SState : Type where
  status : Nat → NStatus
  remaining : Nat → Nat
  ns : Ns
  err : Option PyError

/-- Statement of node `i`; the default is irrelevant (only in-range nodes
can ever be running). -/
def stmtOf (G : FlowGraph) (i : Nat) : Stmt :=
  ((G.nodes.get? i).map FlowNode.stmt).getD (.ret (.const 0))

/-- `deps_remaining = {i: len(n["deps"]) ...}` (line 101). -/
def initRemaining (G : FlowGraph) : Nat → Nat :=
  fun i => (depsOf G i).card

/-- Kick-off (lines 113-116): every node with zero dependencies is
submitted immediately; everything else is pending. -/
def initStatus (G : FlowGraph) : Nat → NStatus :=
  fun i =>
    if i < G.nodes.length ∧ (depsOf G i).card = 0 then .running else .pending

def initState (G : FlowGraph) (ns0 : Ns) : SState :=
  { status := initStatus G, remaining := initRemaining G, ns := ns0, err := none }

/-- Successful completion of node `i` (lines 130-135): mark it done, then
for every dependent `j` (i.e. every `j` with `i ∈ deps j`, which is exactly
how `dependents_map` is filled on lines 74-79) decrement `deps_remaining[j]`
and submit `j` if the counter reached zero. -/
def completeOk (G : FlowGraph) (i : Nat) (s : SState) : SState :=
  { s with
    status := fun j =>
      if j = i then .done
      else if i ∈ depsOf G j ∧ s.remaining j = 1 then .running
      else s.status j,
    remaining := fun j =>
      if i ∈ depsOf G j then s.remaining j - 1 else s.remaining j }

/-- Failed completion of node `i` (lines 125-128): record the exception and
re-raise; counters are untouched and nothing new is submitted. -/
def failUpd (i : Nat) (e : PyError) (s : SState) : SState :=
  { s with
    status := fun j => if j = i then .failed else s.status j,
    err := some e }

inductive Step (G : FlowGraph) (fe : FEnv) : SState → SState → Prop
  | succeed (s : SState) (i : Nat) (ns' : Ns)
      (hrun : s.status i = .running) (herr : s.err = none)
      (hexec : execStmt fe s.ns (stmtOf G i) = .ok ns') :
      Step G fe s (completeOk G i { s with ns := ns' })
  | fail (s : SState) (i : Nat) (e : PyError)
      (hrun : s.status i = .running) (herr : s.err = none)
      (hexec : execStmt fe s.ns (stmtOf G i) = .error e) :
      Step G fe s (failUpd i e s)

def Reach (G : FlowGraph) (fe : FEnv) (ns0 : Ns) (s : SState) : Prop :=
  Relation.ReflTransGen (Step G fe) (initState G ns0) s

/-- The event loop `while futures:` exits when no future is outstanding,
i.e. when no node is running. -/
def Terminal (G : FlowGraph) (s : SState) : Prop :=
  ∀ i < G.nodes.length, s.status i ≠ .running

instance (G : FlowGraph) (s : SState) : Decidable (Terminal G s) := by
  unfold Terminal; infer_instance

/-- The value the wrapped call produces (lines 125-128 and 139-142): the
recorded exception if a node failed, otherwise `None` when no `return` was
present, otherwise the pre-compiled return expression evaluated against the
final namespace. -/
def outcome (G : FlowGraph) (fe : FEnv) (s : SState) : Except PyError (Option Int) :=
  match s.err with
  | some e => .error e
  | none =>
      match G.retExpr with
      | none => .ok none
      | some e => (evalExp fe s.ns e).map some

/-- Transitive dependency: `j` (transitively) depends on `f`. -/
def TransDep (G : FlowGraph) (j f : Nat) : Prop :=
  Relation.TransGen (fun a b => b ∈ depsOf G a) j f

/-! ## Scheduler invariants -/

theorem depsOf_of_le {G : FlowGraph} {j : Nat} (h : G.nodes.length ≤ j) :
    depsOf G j = ∅ := by
  unfold depsOf
  rw [List.get?_eq_none.mpr h]
  rfl

theorem lt_of_mem_depsOf {G : FlowGraph} {i j : Nat} (h : i ∈ depsOf G j) :
    j < G.nodes.length := by
  by_contra hj
  rw [depsOf_of_le (Nat.le_of_not_lt hj)] at h
  exact absurd h (Finset.not_mem_empty i)

theorem completeOk_status (G : FlowGraph) (i : Nat) (s : SState) (j : Nat) :
    (completeOk G i s).status j =
      if j = i then .done
      else if i ∈ depsOf G j ∧ s.remaining j = 1 then .running
      else s.status j := rfl

theorem completeOk_remaining (G : FlowGraph) (i : Nat) (s : SState) (j : Nat) :
    (completeOk G i s).remaining j =
      if i ∈ depsOf G j then s.remaining j - 1 else s.remaining j := rfl

theorem completeOk_err (G : FlowGraph) (i : Nat) (s : SState) :
    (completeOk G i s).err = s.err := rfl

/-- The inductive invariant of the event loop:

* only real nodes ever leave `pending`;
* `deps_remaining[j]` counts exactly the dependencies of `j` that have not
  completed successfully;
* a node that has been submitted (is no longer pending) has all its
  dependencies completed successfully;
* a node all of whose dependencies are done has been submitted;
* as long as no exception has been recorded, no node has failed. -/
structure Inv (G : FlowGraph) (s : SState) : Prop where
  inRange : ∀ j, s.status j ≠ .pending → j < G.nodes.length
  counter : ∀ j, s.remaining j =
    ((depsOf G j).filter (fun k => s.status k ≠ .done)).card
  depsDone : ∀ j, s.status j ≠ .pending → ∀ k ∈ depsOf G j, s.status k = .done
  submitted : ∀ j, j < G.nodes.length →
    ((depsOf G j).filter (fun k => s.status k ≠ .done)).card = 0 →
    s.status j ≠ .pending
  noFail : s.err = none → ∀ j, s.status j ≠ .failed

theorem inv_init (G : FlowGraph) (ns0 : Ns) : Inv G (initState G ns0) := by
  have hstat : ∀ k, (initState G ns0).status k ≠ .done := by
    intro k
    simp only [initState, initStatus]
    split <;> simp
  have hfil : ∀ j, ((depsOf G j).filter
      (fun k => (initState G ns0).status k ≠ .done)) = depsOf G j := by
    intro j
    exact Finset.filter_true_of_mem (fun k _ => hstat k)
  constructor
  · intro j hj
    by_cases h : j < G.nodes.length ∧ (depsOf G j).card = 0
    · exact h.1
    · refine absurd ?_ hj
      simp only [initState, initStatus]
      rw [if_neg h]
  · intro j
    rw [hfil]
    rfl
  · intro j hj k hk
    by_cases h : j < G.nodes.length ∧ (depsOf G j).card = 0
    · rw [Finset.card_eq_zero.mp h.2] at hk
      exact absurd hk (Finset.not_mem_empty k)
    · refine absurd ?_ hj
      simp only [initState, initStatus]
      rw [if_neg h]
  · intro j hlen hcard
    rw [hfil] at hcard
    simp [initState, initStatus, hlen, hcard]
  · intro _ j
    simp only [initState, initStatus]
    split <;> simp

theorem inv_step {G : FlowGraph} {fe : FEnv} {s s' : SState}
    (hinv : Inv G s) (hst : Step G fe s s') : Inv G s' := by
  cases hst with
  | succeed i ns' hrun herr hexec =>
    -- a node listing the still-running `i` as a dependency cannot have
    -- been submitted yet
    have hAi : ∀ j, s.status j ≠ .pending → i ∉ depsOf G j := by
      intro j hj hmem
      have hd := hinv.depsDone j hj i hmem
      rw [hrun] at hd
      exact absurd hd (by simp)
    have hchar : ∀ j, ((completeOk G i { s with ns := ns' }).status j = .done)
        ↔ (j = i ∨ s.status j = .done) := by
      intro j
      rw [completeOk_status]
      by_cases h1 : j = i
      · simp [h1]
      · rw [if_neg h1]
        by_cases h2 : i ∈ depsOf G j ∧ s.remaining j = 1
        · rw [if_pos h2]
          constructor
          · intro hc
            exact absurd hc (by simp)
          · rintro (hc | hc)
            · exact absurd hc h1
            · exact absurd h2.1 (hAi j (by rw [hc]; simp))
        · rw [if_neg h2]
          simp [h1]
    have hfilter : ∀ j, ((depsOf G j).filter
          (fun k => (completeOk G i { s with ns := ns' }).status k ≠ .done))
        = ((depsOf G j).filter (fun k => s.status k ≠ .done)).erase i := by
      intro j
      ext k
      simp only [Finset.mem_erase, Finset.mem_filter]
      constructor
      · rintro ⟨hk, hnd⟩
        have hn : ¬(k = i ∨ s.status k = .done) := fun hc => hnd ((hchar k).mpr hc)
        push_neg at hn
        exact ⟨hn.1, hk, hn.2⟩
      · rintro ⟨hne, hk, hnd⟩
        refine ⟨hk, fun hc => ?_⟩
        rcases (hchar k).mp hc with h | h
        · exact hne h
        · exact hnd h
    constructor
    · -- inRange
      intro j hj
      rw [completeOk_status] at hj
      by_cases h1 : j = i
      · exact h1 ▸ hinv.inRange i (by rw [hrun]; simp)
      · rw [if_neg h1] at hj
        by_cases h2 : i ∈ depsOf G j ∧ s.remaining j = 1
        · exact lt_of_mem_depsOf h2.1
        · rw [if_neg h2] at hj
          exact hinv.inRange j hj
    · -- counter
      intro j
      rw [completeOk_remaining, hfilter j]
      simp only
      by_cases hij : i ∈ depsOf G j
      · have hiF : i ∈ (depsOf G j).filter (fun k => s.status k ≠ .done) := by
          simp [Finset.mem_filter, hij, hrun]
        rw [if_pos hij, Finset.card_erase_of_mem hiF, hinv.counter j]
      · have hiF : i ∉ (depsOf G j).filter (fun k => s.status k ≠ .done) := by
          simp [Finset.mem_filter, hij]
        rw [if_neg hij, Finset.erase_eq_of_not_mem hiF, hinv.counter j]
    · -- depsDone
      intro j hj k hk
      have habsorb : ∀ m, s.status m = .done →
          (completeOk G i { s with ns := ns' }).status m = .done :=
        fun m hm => (hchar m).mpr (Or.inr hm)
      rw [completeOk_status] at hj
      by_cases h1 : j = i
      · subst h1
        exact habsorb k (hinv.depsDone j (by rw [hrun]; simp) k hk)
      · rw [if_neg h1] at hj
        by_cases h2 : i ∈ depsOf G j ∧ s.remaining j = 1
        · -- `j` was just promoted: its only undone dependency was `i`
          have hcardF : ((depsOf G j).filter (fun k => s.status k ≠ .done)).card = 1 := by
            rw [← hinv.counter j]; exact h2.2
          obtain ⟨a, ha⟩ := Finset.card_eq_one.mp hcardF
          have hiF : i ∈ (depsOf G j).filter (fun k => s.status k ≠ .done) := by
            simp [Finset.mem_filter, h2.1, hrun]
          have hai : a = i := by
            rw [ha] at hiF
            exact (Finset.mem_singleton.mp hiF).symm
          by_cases hkd : s.status k = .done
          · exact habsorb k hkd
          · have hkF : k ∈ (depsOf G j).filter (fun m => s.status m ≠ .done) := by
              simp [Finset.mem_filter, hk, hkd]
            rw [ha, hai, Finset.mem_singleton] at hkF
            exact (hchar k).mpr (Or.inl hkF)
        · rw [if_neg h2] at hj
          exact habsorb k (hinv.depsDone j hj k hk)
    · -- submitted
      intro j hlen hcard
      rw [hfilter j] at hcard
      rw [completeOk_status]
      by_cases h1 : j = i
      · simp [h1]
      · rw [if_neg h1]
        by_cases hij : i ∈ depsOf G j
        · have hiF : i ∈ (depsOf G j).filter (fun k => s.status k ≠ .done) := by
            simp [Finset.mem_filter, hij, hrun]
          have hc1 : ((depsOf G j).filter (fun k => s.status k ≠ .done)).card = 1 := by
            have her := Finset.card_erase_of_mem hiF
            have hpos := Finset.card_pos.mpr ⟨i, hiF⟩
            omega
          rw [if_pos ⟨hij, by rw [hinv.counter j]; exact hc1⟩]
          simp
        · have hiF : i ∉ (depsOf G j).filter (fun k => s.status k ≠ .done) := by
            simp [Finset.mem_filter, hij]
          rw [Finset.erase_eq_of_not_mem hiF] at hcard
          have := hinv.submitted j hlen hcard
          split
          · simp
          · exact this
    · -- noFail
      intro herr' j
      rw [completeOk_status]
      by_cases h1 : j = i
      · simp [h1]
      · rw [if_neg h1]
        split
        · simp
        · exact hinv.noFail herr j
  | fail i e hrun herr hexec =>
    have hne : ∀ k, ((failUpd i e s).status k ≠ .done) ↔ (s.status k ≠ .done) := by
      intro k
      simp only [failUpd]
      by_cases h1 : k = i
      · subst h1
        rw [if_pos rfl, hrun]
        simp
      · rw [if_neg h1]
    have hfil : ∀ j, ((depsOf G j).filter
          (fun k => (failUpd i e s).status k ≠ .done))
        = ((depsOf G j).filter (fun k => s.status k ≠ .done)) := by
      intro j
      exact Finset.filter_congr (fun k _ => by rw [hne k])
    have hki : ∀ j, s.status j ≠ .pending → ∀ k ∈ depsOf G j, k ≠ i := by
      intro j hj k hk hik
      have := hinv.depsDone j hj k hk
      rw [hik, hrun] at this
      exact absurd this (by simp)
    constructor
    · intro j hj
      simp only [failUpd] at hj
      by_cases h1 : j = i
      · exact h1 ▸ hinv.inRange i (by rw [hrun]; simp)
      · rw [if_neg h1] at hj
        exact hinv.inRange j hj
    · intro j
      rw [hfil j]
      exact hinv.counter j
    · intro j hj k hk
      simp only [failUpd] at hj ⊢
      by_cases h1 : j = i
      · subst h1
        have hjp : s.status j ≠ .pending := by rw [hrun]; simp
        rw [if_neg (hki j hjp k hk)]
        exact hinv.depsDone j hjp k hk
      · rw [if_neg h1] at hj
        rw [if_neg (hki j hj k hk)]
        exact hinv.depsDone j hj k hk
    · intro j hlen hcard
      rw [hfil j] at hcard
      simp only [failUpd]
      by_cases h1 : j = i
      · rw [if_pos h1]
        simp
      · rw [if_neg h1]
        exact hinv.submitted j hlen hcard
    · intro herr'
      simp only [failUpd] at herr'
      exact absurd herr' (by simp)

theorem reach_inv {G : FlowGraph} {fe : FEnv} {ns0 : Ns} {s : SState}
    (h : Reach G fe ns0 s) : Inv G s := by
  induction h with
  | refl => exact inv_init G ns0
  | tail _ hstep ih => exact inv_step ih hstep

/-- A node that has started has all its transitive dependencies completed
successfully. -/
theorem transdep_done {G : FlowGraph} {s : SState} (hinv : Inv G s)
    {j f : Nat} (h : TransDep G j f) (hj : s.status j ≠ .pending) :
    s.status f = .done := by
  induction h with
  | single hb => exact hinv.depsDone j hj _ hb
  | @tail b c _ hbc ih =>
      have hb : s.status b ≠ .pending := by rw [ih]; simp
      exact hinv.depsDone b hb c hbc

/-- If the graph's edges all point to strictly smaller indices, a terminal
error-free state has every node done. -/
theorem terminal_done {G : FlowGraph} {s : SState}
    (hinv : Inv G s) (herr : s.err = none) (hterm : Terminal G s)
    (hacy : ∀ j, ∀ k ∈ depsOf G j, k < j) :
    ∀ j, j < G.nodes.length → s.status j = .done := by
  intro j
  induction j using Nat.strong_induction_on with
  | _ j ih =>
    intro hj
    have hdone : ∀ k ∈ depsOf G j, s.status k = .done := by
      intro k hk
      exact ih k (hacy j k hk) (lt_trans (hacy j k hk) hj)
    have hcard : ((depsOf G j).filter (fun k => s.status k ≠ .done)).card = 0 := by
      rw [Finset.card_eq_zero, Finset.filter_eq_empty_iff]
      intro k hk
      simp [hdone k hk]
    have hnp := hinv.submitted j hj hcard
    have hnr := hterm j hj
    have hnf := hinv.noFail herr j
    cases hstat : s.status j <;> simp_all

theorem acyclic_of_bounded {G : FlowGraph}
    (h : ∀ j, j < G.nodes.length → ∀ k ∈ depsOf G j, k < j) :
    ∀ j, ∀ k ∈ depsOf G j, k < j := by
  intro j k hk
  exact h j (lt_of_mem_depsOf hk) k hk

/-! ## Builder characterisation -/

/-- Every non-`return` statement becomes exactly one node: the builder
rejects nothing. -/
theorem buildGo_length (body : List Stmt) :
    ∀ idx p r, (buildGo body idx p r).nodes.length
      = (body.filter (fun s => !s.isRet)).length := by
  induction body with
  | nil => intro idx p r; rfl
  | cons s rest ih =>
    intro idx p r
    cases s with
    | ret e => simpa [buildGo, Stmt.isRet] using ih (idx + 1) p (some e)
    | assign x e =>
        simpa [buildGo, Stmt.isRet] using
          ih (idx + 1) (fun v => if v ∈ stmtWrites (.assign x e) then some idx else p v) r
    | sif c t e =>
        simpa [buildGo, Stmt.isRet] using
          ih (idx + 1) (fun v => if v ∈ stmtWrites (.sif c t e) then some idx else p v) r

theorem buildFlow_length (body : List Stmt) :
    (buildFlow body).nodes.length = (body.filter (fun s => !s.isRet)).length :=
  buildGo_length body 0 (fun _ => none) none

def nsEmpty : Ns := fun _ => none

/-- A body with statements after a `return` (dead code, but legal Python
that `flow` happily analyses): `return a; a = 1; b = a`. -/
def bodySkew : List Stmt :=
  [.ret (.evar "a"), .assign "a" (.const 1), .assign "b" (.evar "a")]

def G8 : FlowGraph := buildFlow bodySkew

def feNone : FEnv := fun _ => none

/-- The terminal state of the only possible run of `G8`: node 0 (`a = 1`)
completes; node 1 (`b = a`) waits on index 1 — itself — forever. -/
def s8a : SState :=
  completeOk G8 0 { initState G8 nsEmpty with ns := setVar (initState G8 nsEmpty).ns "a" 1 }

theorem reach_s8a : Reach G8 feNone nsEmpty s8a :=
  Relation.ReflTransGen.single (Step.succeed _ 0 _ (by decide) rfl rfl)

/-- A body whose second statement is an `if` compound statement. -/
def bodyIf : List Stmt :=
  [.assign "a" (.const 0),
   .sif (.evar "a") (.assign "b" (.const 1)) (.assign "b" (.const 2)),
   .ret (.evar "b")]

def GIf : FlowGraph := buildFlow bodyIf

def hasCompound : Stmt → Bool
  | .sif _ _ _ => true
  | _ => false

def bodyHasCompound (body : List Stmt) : Bool := body.any hasCompound

/-- Whether a `return` statement occurs anywhere in the statement's
subtree (the statement's own top-level `ret` form included). -/
def stmtContainsRet : Stmt → Bool
  | .ret _ => true
  | .assign _ _ => false
  | .sif _ t e => stmtContainsRet t || stmtContainsRet e

/-- `_compile_stmt` (flow.py lines 29-33) wraps one statement in a bare
`ast.Module` and calls `compile(...)`; CPython rejects a `return` inside
module-level code with `SyntaxError: 'return' outside function`.  Top-level
`return` statements are skipped by the builder loop before any compilation,
so the compile step fails exactly for a non-`return` statement with a
nested `return`. -/
def compileFails (s : Stmt) : Bool := !s.isRet && stmtContainsRet s

/-- The decorator's analysis including the compile step's error path: the
build loop raises the `SyntaxError` of the first statement whose
compilation fails (observably: the decoration raises iff some statement
fails to compile), otherwise produces the graph of `buildGo`. -/
def buildFlowChecked (body : List Stmt) : Except PyError FlowGraph :=
  if body.any compileFails then .error .syntaxError else .ok (buildFlow body)

/-- An ordinary early-return body: `a = 0; if a: return 1 else: b = 2`. -/
def bodyEarlyRet : List Stmt :=
  [.assign "a" (.const 0),
   .sif (.evar "a") (.ret (.const 1)) (.assign "b" (.const 2))]

def sIfa : SState :=
  completeOk GIf 0 { initState GIf nsEmpty with ns := setVar (initState GIf nsEmpty).ns "a" 0 }

def sIfb : SState := completeOk GIf 1 { sIfa with ns := setVar sIfa.ns "b" 2 }

theorem reach_sIfb : Reach GIf feNone nsEmpty sIfb := by
  refine Relation.ReflTransGen.head (Step.succeed _ 0 _ (by decide) rfl rfl) ?_
  exact Relation.ReflTransGen.single (Step.succeed _ 1 _ (by decide) rfl rfl)

/-- The failure scenario: `a = f1(); c = a + 1; return c` with `f1` raising. -/
def bodyFail : List Stmt :=
  [.assign "a" (.call "f1"), .assign "c" (.add (.evar "a") (.const 1)), .ret (.evar "c")]

def G3 : FlowGraph := buildFlow bodyFail

def fe3 : FEnv := fun f => if f = "f1" then some (.error (.userError "boom")) else none

def s3f : SState := failUpd 0 (.userError "boom") (initState G3 nsEmpty)

/-- **C1**: in every state reachable by the scheduler, a node that has begun
execution (is no longer pending) has every node of its dependency set
completed successfully, and each remaining-dependency counter equals the
number of its dependencies that have not completed successfully — so a node
is submitted only when its counter reaches zero, and counters drop only on
successful producer completion. -/
theorem flow_dependency_safety (G : FlowGraph) (fe : FEnv) (ns0 : Ns) (s : SState)
    (h : Reach G fe ns0 s) :
    (∀ j, s.status j ≠ .pending → ∀ k ∈ depsOf G j, s.status k = .done) ∧
    (∀ j, s.remaining j = ((depsOf G j).filter (fun k => s.status k ≠ .done)).card) :=
  ⟨(reach_inv h).depsDone, (reach_inv h).counter⟩

/-- Witness for C1 on a concrete run: after node 0 of `GIf` completes, node
1 is running, and C1 yields that its dependency (node 0) is done. -/
theorem flow_dependency_safety_witness : sIfa.status 0 = NStatus.done :=
  (flow_dependency_safety GIf feNone nsEmpty sIfa
    (Relation.ReflTransGen.single (Step.succeed _ 0 _ (by decide) rfl rfl))).1
    1 (by decide) 0 (by decide)

/-- **C3**: if a node's body raises during a flow invocation, then after the
scheduler processes that failure every transitive dependent of the failed
node is still pending, no further scheduler step is possible (so those
dependents never execute), and the invocation's outcome is exactly the
raised error — no computed result. -/
theorem flow_failure_propagation (G : FlowGraph) (fe : FEnv) (ns0 : Ns)
    (s : SState) (f : Nat) (e : PyError)
    (hreach : Reach G fe ns0 s)
    (hrun : s.status f = .running) (herr : s.err = none)
    (hexec : execStmt fe s.ns (stmtOf G f) = .error e) :
    Step G fe s (failUpd f e s) ∧
    (∀ j, TransDep G j f → (failUpd f e s).status j = .pending) ∧
    outcome G fe (failUpd f e s) = .error e ∧
    (∀ t, ¬ Step G fe (failUpd f e s) t) := by
  have hinv := reach_inv hreach
  refine ⟨Step.fail s f e hrun herr hexec, ?_, rfl, ?_⟩
  · intro j hdep
    have hjp : s.status j = .pending := by
      by_contra hne
      have hfd := transdep_done hinv hdep hne
      rw [hrun] at hfd
      exact absurd hfd (by simp)
    have hjf : j ≠ f := by
      intro hjf
      rw [hjf, hrun] at hjp
      exact absurd hjp (by simp)
    simp only [failUpd]
    rw [if_neg hjf]
    exact hjp
  · intro t hstep
    cases hstep with
    | succeed i ns' hr he hx => exact absurd he (by simp [failUpd])
    | fail i e2 hr he hx => exact absurd he (by simp [failUpd])

/-- Witness for C3: with `f1` raising `boom`, node 1 (`c = a + 1`, a
transitive dependent of the failed node 0) is left pending and the
invocation's outcome is exactly the `boom` error. -/
theorem flow_failure_propagation_witness :
    s3f.status 1 = NStatus.pending ∧
    outcome G3 fe3 s3f = .error (.userError "boom") := by
  have h := flow_failure_propagation G3 fe3 nsEmpty (initState G3 nsEmpty) 0
    (.userError "boom") Relation.ReflTransGen.refl (by decide) rfl rfl
  exact ⟨h.2.1 1 (Relation.TransGen.single (by decide)), h.2.2.1⟩

/-- **C5**: the claimed invariant "every dependency index is strictly
smaller than the node's own index" is violated by the code: in the body
`return a; a = 1; b = a`, writes are registered under the enumerate index
(which counts the skipped `return`), so the node at list position 1
(`b = a`) receives the dependency set `{1}` — an edge to itself. -/
theorem flow_self_edge_on_skew :
    (buildFlow bodySkew).nodes.get? 1 =
      some ⟨.assign "b" (.evar "a"), {1}⟩ ∧
    1 ∈ depsOf (buildFlow bodySkew) 1 ∧
    ¬ (∀ k ∈ depsOf (buildFlow bodySkew) 1, k < 1) := by
  refine ⟨by decide, by decide, fun h => ?_⟩
  exact absurd (h 1 (by decide)) (by decide)

/-- **C2** counterexample: `bodyIf` contains an `if` statement, yet the
analysis completes normally (no error of any kind exists in the decorator)
and the compiled flow executes to a terminal state returning a value — the
claimed analysis-time rejection never happens. -/
theorem flow_no_rejection_counterexample :
    bodyHasCompound bodyIf = true ∧
    Reach GIf feNone nsEmpty sIfb ∧
    Terminal GIf sIfb ∧
    outcome GIf feNone sIfb = .ok (some 2) :=
  ⟨by decide, reach_sIfb, by decide, rfl⟩

/-- **C2 (amended)**: no `UnsupportedConstruct` rejection exists.  A body
whose statements all compile — in particular one containing a conditional
with `return`-free branches — is never rejected: analysis succeeds and
every non-`return` statement, conditionals included, becomes exactly one
node (the `if` node's reads/writes coming from walking its whole subtree).
The only analysis-time error the decorator raises is incidental: the
`_compile_stmt` call raises `SyntaxError` (`'return' outside function`)
when a non-`return` statement contains a nested `return`, as in the
early-return body `a = 0; if a: return 1 else: b = 2` — a `SyntaxError`,
not the claimed `UnsupportedConstruct` error. -/
theorem flow_no_rejection :
    (∀ body, body.any compileFails = false →
      buildFlowChecked body = .ok (buildFlow body) ∧
      (buildFlow body).nodes.length = (body.filter (fun s => !s.isRet)).length) ∧
    (buildFlow bodyIf).nodes.get? 1 =
      some ⟨.sif (.evar "a") (.assign "b" (.const 1)) (.assign "b" (.const 2)), {0}⟩ ∧
    buildFlowChecked bodyEarlyRet = .error .syntaxError := by
  refine ⟨?_, by decide, rfl⟩
  intro body h
  exact ⟨by simp [buildFlowChecked, h], buildFlow_length body⟩

/-- Witness for the amended C2 at the concrete `if`-body (whose branches
contain no `return`, so its statements all compile). -/
theorem flow_no_rejection_witness :
    buildFlowChecked bodyIf = .ok (buildFlow bodyIf) ∧
    (buildFlow bodyIf).nodes.length
      = (bodyIf.filter (fun s => !s.isRet)).length :=
  flow_no_rejection.1 bodyIf (by decide)

/-- **C8** counterexample: neither construction nor execution checks for
cycles: `G8` contains a self-edge (node 1 depends on node 1), yet the
builder returns it as an ordinary graph and execution reaches a terminal
state whose outcome is a success value, reporting no error of any kind. -/
theorem flow_no_cycle_check_counterexample :
    1 ∈ depsOf G8 1 ∧
    Reach G8 feNone nsEmpty s8a ∧
    Terminal G8 s8a ∧
    (outcome G8 feNone s8a).isOk = true :=
  ⟨by decide, reach_s8a, by decide, rfl⟩

/-- **C8 (amended)**: no cycle detection exists; on the cyclic graph `G8`
the node on the cycle is simply never submitted (it stays pending in the
terminal state) and the invocation still evaluates and returns the result
expression. -/
theorem flow_no_cycle_check :
    1 ∈ depsOf G8 1 ∧
    Reach G8 feNone nsEmpty s8a ∧
    Terminal G8 s8a ∧
    s8a.status 1 = NStatus.pending ∧
    outcome G8 feNone s8a = .ok (some 1) :=
  ⟨by decide, reach_s8a, by decide, by decide, rfl⟩

/-! ## The literal scenario (C6) -/

theorem setVar_ne {ns : Ns} {x : String} {v : Int} {y : String} (h : y ≠ x) :
    setVar ns x v y = ns y := if_neg h

/-- Characterisation of the post-completion statuses: a node is done after
node `i` completes successfully iff it is `i` or was already done. -/
theorem completeOk_done_iff {G : FlowGraph} {s : SState} {i : Nat}
    (hdd : ∀ j, s.status j ≠ .pending → ∀ k ∈ depsOf G j, s.status k = .done)
    (hrun : s.status i = .running) (j : Nat) :
    ((completeOk G i s).status j = .done) ↔ (j = i ∨ s.status j = .done) := by
  have hAi : ∀ j, s.status j ≠ .pending → i ∉ depsOf G j := by
    intro j hj hmem
    have hd := hdd j hj i hmem
    rw [hrun] at hd
    exact absurd hd (by simp)
  rw [completeOk_status]
  by_cases h1 : j = i
  · simp [h1]
  · rw [if_neg h1]
    by_cases h2 : i ∈ depsOf G j ∧ s.remaining j = 1
    · rw [if_pos h2]
      constructor
      · intro hc
        exact absurd hc (by simp)
      · rintro (hc | hc)
        · exact absurd hc h1
        · exact absurd h2.1 (hAi j (by rw [hc]; simp))
    · rw [if_neg h2]
      simp [h1]

/-- `a = f1(); b = f2(); c = a + 1; d = b + 1; return c + d`. -/
def bodyC6 : List Stmt :=
  [.assign "a" (.call "f1"),
   .assign "b" (.call "f2"),
   .assign "c" (.add (.evar "a") (.const 1)),
   .assign "d" (.add (.evar "b") (.const 1)),
   .ret (.add (.evar "c") (.evar "d"))]

def G6 : FlowGraph := buildFlow bodyC6

/-- `f1` returns 2, `f2` returns 3. -/
def fe6 : FEnv := fun f =>
  if f = "f1" then some (.ok 2) else if f = "f2" then some (.ok 3) else none

/-- Concrete namespace invariant for the literal scenario: no failure ever
occurs, and each completed node has deposited its value. -/
def Inv6 (s : SState) : Prop :=
  s.err = none ∧
  (s.status 0 = .done → s.ns "a" = some 2) ∧
  (s.status 1 = .done → s.ns "b" = some 3) ∧
  (s.status 2 = .done → s.ns "c" = some 3) ∧
  (s.status 3 = .done → s.ns "d" = some 4)

theorem reach6 {s : SState} (h : Reach G6 fe6 nsEmpty s) : Inv G6 s ∧ Inv6 s := by
  induction h with
  | refl =>
      refine ⟨inv_init G6 nsEmpty, rfl, ?_, ?_, ?_, ?_⟩ <;>
        exact fun hc => absurd hc (by decide)
  | @tail b c hr hstep ih =>
      refine ⟨inv_step ih.1 hstep, ?_⟩
      cases hstep with
      | succeed i ns' hrun herr hexec =>
          have hlen : i < 4 := by
            have h4 : G6.nodes.length = 4 := by decide
            have := ih.1.inRange i (by rw [hrun]; simp)
            omega
          have hdi := completeOk_done_iff (G := G6) (s := { b with ns := ns' })
            ih.1.depsDone hrun
          interval_cases i
          · have hx : execStmt fe6 b.ns (stmtOf G6 0) = .ok (setVar b.ns "a" 2) := rfl
            rw [hx] at hexec
            injection hexec with hns
            subst hns
            refine ⟨herr, fun _ => rfl, ?_, ?_, ?_⟩
            · intro h
              rcases (hdi 1).mp h with h01 | hd
              · exact absurd h01 (by decide)
              · have hv := ih.2.2.2.1 hd
                show setVar b.ns "a" 2 "b" = some 3
                rw [setVar_ne (by decide)]
                exact hv
            · intro h
              rcases (hdi 2).mp h with h01 | hd
              · exact absurd h01 (by decide)
              · have hv := ih.2.2.2.2.1 hd
                show setVar b.ns "a" 2 "c" = some 3
                rw [setVar_ne (by decide)]
                exact hv
            · intro h
              rcases (hdi 3).mp h with h01 | hd
              · exact absurd h01 (by decide)
              · have hv := ih.2.2.2.2.2 hd
                show setVar b.ns "a" 2 "d" = some 4
                rw [setVar_ne (by decide)]
                exact hv
          · have hx : execStmt fe6 b.ns (stmtOf G6 1) = .ok (setVar b.ns "b" 3) := rfl
            rw [hx] at hexec
            injection hexec with hns
            subst hns
            refine ⟨herr, ?_, fun _ => rfl, ?_, ?_⟩
            · intro h
              rcases (hdi 0).mp h with h01 | hd
              · exact absurd h01 (by decide)
              · have hv := ih.2.2.1 hd
                show setVar b.ns "b" 3 "a" = some 2
                rw [setVar_ne (by decide)]
                exact hv
            · intro h
              rcases (hdi 2).mp h with h01 | hd
              · exact absurd h01 (by decide)
              · have hv := ih.2.2.2.2.1 hd
                show setVar b.ns "b" 3 "c" = some 3
                rw [setVar_ne (by decide)]
                exact hv
            · intro h
              rcases (hdi 3).mp h with h01 | hd
              · exact absurd h01 (by decide)
              · have hv := ih.2.2.2.2.2 hd
                show setVar b.ns "b" 3 "d" = some 4
                rw [setVar_ne (by decide)]
                exact hv
          · have h0d : b.status 0 = .done :=
              ih.1.depsDone 2 (by rw [hrun]; simp) 0 (by decide)
            have ha : b.ns "a" = some 2 := ih.2.2.1 h0d
            have hx : execStmt fe6 b.ns (stmtOf G6 2) = .ok (setVar b.ns "c" 3) := by
              show execStmt fe6 b.ns (.assign "c" (.add (.evar "a") (.const 1))) = _
              simp [execStmt, evalExp, ha]
              rfl
            rw [hx] at hexec
            injection hexec with hns
            subst hns
            refine ⟨herr, ?_, ?_, fun _ => rfl, ?_⟩
            · intro h
              rcases (hdi 0).mp h with h01 | hd
              · exact absurd h01 (by decide)
              · have hv := ih.2.2.1 hd
                show setVar b.ns "c" 3 "a" = some 2
                rw [setVar_ne (by decide)]
                exact hv
            · intro h
              rcases (hdi 1).mp h with h01 | hd
              · exact absurd h01 (by decide)
              · have hv := ih.2.2.2.1 hd
                show setVar b.ns "c" 3 "b" = some 3
                rw [setVar_ne (by decide)]
                exact hv
            · intro h
              rcases (hdi 3).mp h with h01 | hd
              · exact absurd h01 (by decide)
              · have hv := ih.2.2.2.2.2 hd
                show setVar b.ns "c" 3 "d" = some 4
                rw [setVar_ne (by decide)]
                exact hv
          · have h1d : b.status 1 = .done :=
              ih.1.depsDone 3 (by rw [hrun]; simp) 1 (by decide)
            have hb : b.ns "b" = some 3 := ih.2.2.2.1 h1d
            have hx : execStmt fe6 b.ns (stmtOf G6 3) = .ok (setVar b.ns "d" 4) := by
              show execStmt fe6 b.ns (.assign "d" (.add (.evar "b") (.const 1))) = _
              simp [execStmt, evalExp, hb]
              rfl
            rw [hx] at hexec
            injection hexec with hns
            subst hns
            refine ⟨herr, ?_, ?_, ?_, fun _ => rfl⟩
            · intro h
              rcases (hdi 0).mp h with h01 | hd
              · exact absurd h01 (by decide)
              · have hv := ih.2.2.1 hd
                show setVar b.ns "d" 4 "a" = some 2
                rw [setVar_ne (by decide)]
                exact hv
            · intro h
              rcases (hdi 1).mp h with h01 | hd
              · exact absurd h01 (by decide)
              · have hv := ih.2.2.2.1 hd
                show setVar b.ns "d" 4 "b" = some 3
                rw [setVar_ne (by decide)]
                exact hv
            · intro h
              rcases (hdi 2).mp h with h01 | hd
              · exact absurd h01 (by decide)
              · have hv := ih.2.2.2.2.1 hd
                show setVar b.ns "d" 4 "c" = some 3
                rw [setVar_ne (by decide)]
                exact hv
      | fail i e hrun herr hexec =>
          exfalso
          have hlen : i < 4 := by
            have h4 : G6.nodes.length = 4 := by decide
            have := ih.1.inRange i (by rw [hrun]; simp)
            omega
          interval_cases i
          · rw [show execStmt fe6 b.ns (stmtOf G6 0)
                = .ok (setVar b.ns "a" 2) from rfl] at hexec
            exact absurd hexec (by simp)
          · rw [show execStmt fe6 b.ns (stmtOf G6 1)
                = .ok (setVar b.ns "b" 3) from rfl] at hexec
            exact absurd hexec (by simp)
          · have h0d : b.status 0 = .done :=
              ih.1.depsDone 2 (by rw [hrun]; simp) 0 (by decide)
            have ha : b.ns "a" = some 2 := ih.2.2.1 h0d
            have hx : execStmt fe6 b.ns (stmtOf G6 2) = .ok (setVar b.ns "c" 3) := by
              show execStmt fe6 b.ns (.assign "c" (.add (.evar "a") (.const 1))) = _
              simp [execStmt, evalExp, ha]
              rfl
            rw [hx] at hexec
            exact absurd hexec (by simp)
          · have h1d : b.status 1 = .done :=
              ih.1.depsDone 3 (by rw [hrun]; simp) 1 (by decide)
            have hb : b.ns "b" = some 3 := ih.2.2.2.1 h1d
            have hx : execStmt fe6 b.ns (stmtOf G6 3) = .ok (setVar b.ns "d" 4) := by
              show execStmt fe6 b.ns (.assign "d" (.add (.evar "b") (.const 1))) = _
              simp [execStmt, evalExp, hb]
              rfl
            rw [hx] at hexec
            exact absurd hexec (by simp)

/-- A body with no `return` statement. -/
def bodyNR : List Stmt := [.assign "a" (.const 1)]

def GNR : FlowGraph := buildFlow bodyNR

theorem reachNR_err {s : SState} (h : Reach GNR feNone nsEmpty s) : s.err = none := by
  induction h with
  | refl => rfl
  | @tail b c hr hstep ih =>
      cases hstep with
      | succeed i ns' hrun herr hexec => exact herr
      | fail i e hrun herr hexec =>
          exfalso
          have hlen : i < 1 := by
            have h1 : GNR.nodes.length = 1 := by decide
            have := (reach_inv hr).inRange i (by rw [hrun]; simp)
            omega
          interval_cases i
          rw [show execStmt feNone b.ns (stmtOf GNR 0)
              = .ok (setVar b.ns "a" 1) from rfl] at hexec
          exact absurd hexec (by simp)

/-- **C6**: for the body `a = f1(); b = f2(); c = a + 1; d = b + 1;
return c + d` with `f1 = 2` and `f2 = 3`, every terminal reachable state of
the scheduler yields the outcome `7`, evaluated from the pre-compiled
return expression over the final namespace; the nodes of `f1` and `f2`
carry no dependency edge (their dependency sets are empty); and a body with
no `return` statement yields the `None` outcome. -/
theorem flow_literal_scenario :
    (∀ s, Reach G6 fe6 nsEmpty s → Terminal G6 s →
      outcome G6 fe6 s = .ok (some 7)) ∧
    (depsOf G6 0 = ∅ ∧ depsOf G6 1 = ∅) ∧
    (∀ s, Reach GNR feNone nsEmpty s → Terminal GNR s →
      outcome GNR feNone s = .ok none) := by
  refine ⟨?_, ⟨by decide, by decide⟩, ?_⟩
  · intro s hreach hterm
    obtain ⟨hinv, h6⟩ := reach6 hreach
    have herr := h6.1
    have hacy : ∀ j, ∀ k ∈ depsOf G6 j, k < j := by
      apply acyclic_of_bounded
      intro j hj k hk
      have h4 : G6.nodes.length = 4 := by decide
      rw [h4] at hj
      interval_cases j
      · rw [show depsOf G6 0 = ∅ from by decide] at hk
        exact absurd hk (Finset.not_mem_empty k)
      · rw [show depsOf G6 1 = ∅ from by decide] at hk
        exact absurd hk (Finset.not_mem_empty k)
      · rw [show depsOf G6 2 = {0} from by decide] at hk
        rw [Finset.mem_singleton] at hk
        omega
      · rw [show depsOf G6 3 = {1} from by decide] at hk
        rw [Finset.mem_singleton] at hk
        omega
    have hdone := terminal_done hinv herr hterm hacy
    have hc : s.ns "c" = some 3 := h6.2.2.2.1 (hdone 2 (by decide))
    have hd : s.ns "d" = some 4 := h6.2.2.2.2 (hdone 3 (by decide))
    have hre : G6.retExpr = some (.add (.evar "c") (.evar "d")) := by decide
    simp only [outcome, herr, hre]
    simp [evalExp, hc, hd]
    rfl
  · intro s hreach hterm
    have herr := reachNR_err hreach
    have hre : GNR.retExpr = none := by decide
    simp only [outcome, herr, hre]

/-- The canonical full run of the literal scenario, completion order
0, 1, 2, 3. -/
def s6a : SState :=
  completeOk G6 0 { initState G6 nsEmpty with ns := setVar (initState G6 nsEmpty).ns "a" 2 }

def s6b : SState := completeOk G6 1 { s6a with ns := setVar s6a.ns "b" 3 }

def s6c : SState := completeOk G6 2 { s6b with ns := setVar s6b.ns "c" 3 }

def s6d : SState := completeOk G6 3 { s6c with ns := setVar s6c.ns "d" 4 }

theorem reach_s6d : Reach G6 fe6 nsEmpty s6d := by
  refine Relation.ReflTransGen.head (Step.succeed _ 0 _ (by decide) rfl rfl) ?_
  refine Relation.ReflTransGen.head (Step.succeed _ 1 _ (by decide) rfl rfl) ?_
  refine Relation.ReflTransGen.head (Step.succeed _ 2 _ (by decide) rfl rfl) ?_
  exact Relation.ReflTransGen.single (Step.succeed _ 3 _ (by decide) rfl rfl)

/-- Witness for C6: the canonical run terminates and returns 7. -/
theorem flow_literal_scenario_witness :
    Terminal G6 s6d ∧ outcome G6 fe6 s6d = .ok (some 7) :=
  ⟨by decide, flow_literal_scenario.1 s6d reach_s6d (by decide)⟩

/-! ## The parallel map utility (loop.py)

`loop(iterable, ...)` materialises `list(range(n))` for an `int` argument
and `list(iterable)` otherwise, merges the process-wide context with the
explicit keyword context (explicit wins), creates a thread pool with
`max_workers = len(items)` — the Python standard library's
`ThreadPoolExecutor.__init__` raises `ValueError` when `max_workers <= 0`,
so an empty collection errors before any submission — then submits one
future per element in input order and collects `[f.result() for f in
futures]` in that same submission order, re-raising the first error
encountered in list order. -/

/-- `{**_loop_context, **explicit_context}`: explicit keys win. -/
def mergeContext (glob expl : Ns) : Ns :=
  fun k => (expl k).orElse (fun _ => glob k)

def loopList {T R : Type} (items : List T) (ctx : Ns)
    (fn : T → Ns → Except PyError R) : Except PyError (List R) :=
  if items.length = 0 then .error .valueError
  else items.mapM (fun x => fn x ctx)

def loopInt {R : Type} (n : Nat) (ctx : Ns)
    (fn : Nat → Ns → Except PyError R) : Except PyError (List R) :=
  loopList (List.range n) ctx fn

def doubleFn : Int → Ns → Except PyError Int := fun x _ => .ok (x * 2)

theorem mapM_ok {T R : Type} (f : T → Except PyError R) (g : T → R) :
    ∀ l : List T, (∀ x ∈ l, f x = .ok (g x)) → l.mapM f = .ok (l.map g) := by
  intro l
  induction l with
  | nil => intro _; rfl
  | cons a l ih =>
      intro h
      rw [List.mapM_cons, h a (List.mem_cons_self a l),
        ih (fun x hx => h x (List.mem_cons_of_mem a hx))]
      rfl

/-- **C7**: `loop` over a collection (or an integer `n`, treated as the
range `0..n`) runs the function once per element and returns the results in
input order — the list of futures is collected in submission order, not
completion order; mapping `double` over `[1, 2, 3]` gives `[2, 4, 6]`. -/
theorem loop_ordered_map {T R : Type} (items : List T) (ctx : Ns)
    (fn : T → Ns → Except PyError R) (g : T → R)
    (hne : items ≠ [])
    (hok : ∀ x ∈ items, fn x ctx = .ok (g x)) :
    loopList items ctx fn = .ok (items.map g) ∧
    (∀ n : Nat, n ≠ 0 → ∀ (fn2 : Nat → Ns → Except PyError Int) (g2 : Nat → Int),
      (∀ x ∈ List.range n, fn2 x ctx = .ok (g2 x)) →
      loopInt n ctx fn2 = .ok ((List.range n).map g2)) ∧
    loopList [1, 2, 3] ctx doubleFn = .ok [2, 4, 6] := by
  refine ⟨?_, ?_, rfl⟩
  · rw [loopList, if_neg (by simpa [List.length_eq_zero] using hne)]
    exact mapM_ok _ g items hok
  · intro n hn fn2 g2 hok2
    rw [loopInt, loopList, if_neg (by simpa using hn)]
    exact mapM_ok _ g2 (List.range n) hok2

/-- Witness for C7 at the literal scenario. -/
theorem loop_ordered_map_witness :
    loopList [1, 2, 3] nsEmpty doubleFn = .ok [2, 4, 6] :=
  (loop_ordered_map [1, 2, 3] nsEmpty doubleFn (fun x => x * 2) (by simp)
    (fun _ _ => rfl)).1

/-- **C9**: `loop` on an empty collection, or on the integer `0`, raises
`ValueError` (from `ThreadPoolExecutor(max_workers=0)`) instead of
returning an empty result list. -/
theorem loop_empty_raises (fn : Int → Ns → Except PyError Int)
    (fn2 : Nat → Ns → Except PyError Int) (ctx : Ns) :
    loopList ([] : List Int) ctx fn = .error .valueError ∧
    loopInt 0 ctx fn2 = .error .valueError ∧
    loopInt 0 ctx fn2 ≠ .ok [] := by
  refine ⟨rfl, rfl, fun h => ?_⟩
  exact Except.noConfusion h

/-- Witness for C9 at concrete functions. -/
theorem loop_empty_raises_witness :
    loopInt 0 nsEmpty (fun n _ => .ok (n : Int)) = .error .valueError :=
  (loop_empty_raises doubleFn (fun n _ => .ok (n : Int)) nsEmpty).2.1

/-! ## Namespace initialisation of the wrapped call (C10) -/

theorem setVar_self (ns : Ns) (x : String) (v : Int) :
    setVar ns x v x = some v := if_pos rfl

/-- A sequence of `dict.update`-style bindings applied in order: later
entries win. -/
def applyBindings (ns : Ns) (bs : List (String × Int)) : Ns :=
  bs.foldl (fun m p => setVar m p.1 p.2) ns

/-- flow.py lines 95-98: `locals_ns = {}`, then
`locals_ns.update(dict(zip(argnames, args)))`, then
`locals_ns.update(kwargs)` — no arity or name checking of any kind. -/
def initNamespace (argnames : List String) (args : List Int)
    (kwargs : List (String × Int)) : Ns :=
  applyBindings (applyBindings (fun _ => none) (argnames.zip args)) kwargs

theorem applyBindings_not_mem (bs : List (String × Int)) :
    ∀ (ns : Ns) (x : String), x ∉ bs.map Prod.fst → applyBindings ns bs x = ns x := by
  induction bs with
  | nil => intro ns x _; rfl
  | cons b bs ih =>
      intro ns x hx
      rw [List.map_cons, List.mem_cons] at hx
      push_neg at hx
      rw [show applyBindings ns (b :: bs) = applyBindings (setVar ns b.1 b.2) bs from rfl,
        ih _ x hx.2, setVar_ne hx.1]

theorem applyBindings_mem (bs : List (String × Int)) :
    ∀ (ns : Ns) (x : String) (w : Int), (bs.map Prod.fst).Nodup → (x, w) ∈ bs →
      applyBindings ns bs x = some w := by
  induction bs with
  | nil => intro ns x w _ h; exact absurd h (List.not_mem_nil _)
  | cons b bs ih =>
      intro ns x w hnd hmem
      obtain ⟨b1, b2⟩ := b
      rw [List.map_cons, List.nodup_cons] at hnd
      rcases List.mem_cons.mp hmem with hb | hb
      · rw [Prod.mk.injEq] at hb
        obtain ⟨hx1, hw⟩ := hb
        subst hx1
        subst hw
        rw [show applyBindings ns ((x, w) :: bs) = applyBindings (setVar ns x w) bs from rfl,
          applyBindings_not_mem bs _ x hnd.1]
        exact setVar_self ns x w
      · exact ih _ x w hnd.2 hb

/-- **C10**: the wrapped callable accepts arbitrary keyword arguments:
keyword bindings are merged after positional bindings, so a keyword whose
name matches a positional parameter silently overrides the positional
value, and a keyword matching no declared parameter is simply inserted into
the namespace — never a `TypeError` (the embedding is a total function; the
code has no checking path). -/
theorem wrapped_kwargs (argnames : List String) (args : List Int)
    (kwargs : List (String × Int)) (x : String)
    (hnd : (kwargs.map Prod.fst).Nodup) :
    (∀ w, (x, w) ∈ kwargs → initNamespace argnames args kwargs x = some w) ∧
    (x ∉ kwargs.map Prod.fst →
      initNamespace argnames args kwargs x
        = applyBindings (fun _ => none) (argnames.zip args) x) := by
  constructor
  · intro w hw
    exact applyBindings_mem kwargs _ x w hnd hw
  · intro hx
    exact applyBindings_not_mem kwargs _ x hx

/-- Witness for C10: `y` is a positional parameter overridden by the
keyword value 9, `z` matches no parameter yet lands in the namespace, and
the untouched positional `x` keeps its positional value. -/
theorem wrapped_kwargs_witness :
    initNamespace ["x", "y"] [1, 2] [("y", 9), ("z", 5)] "y" = some 9 ∧
    initNamespace ["x", "y"] [1, 2] [("y", 9), ("z", 5)] "z" = some 5 ∧
    initNamespace ["x", "y"] [1, 2] [("y", 9), ("z", 5)] "x" = some 1 := by
  refine ⟨?_, ?_, ?_⟩
  · exact (wrapped_kwargs ["x", "y"] [1, 2] [("y", 9), ("z", 5)] "y" (by decide)).1
      9 (by decide)
  · exact (wrapped_kwargs ["x", "y"] [1, 2] [("y", 9), ("z", 5)] "z" (by decide)).1
      5 (by decide)
  · rw [(wrapped_kwargs ["x", "y"] [1, 2] [("y", 9), ("z", 5)] "x" (by decide)).2
      (by decide)]
    rfl

end Agentic
